import Mathlib

/-!
Verification of the finstral local cache layer (Symbol Store and Candle
Store).  The repository ships the implementation modules `local_candles.py`
and `local_symbols.py` only through their callers (notebooks and README), so
the store operations below are modelled from the specification's contract
(the data model, the Symbol Store and Candle Store contracts, and the error
handling policy) and verified against it.  Timestamps are natural numbers,
prices and volumes are integers, and the upstream API Gateway is an explicit
function parameter.
-/

/-- Modelled from the spec: a candle record — identity is the composite
key (symbol, interval, bar-start-timestamp); attributes are the bar-end
timestamp, open, high, low, close, volume and the traded-value flag.  The
module `local_candles.py` holding the concrete row type is missing from the
sources. -/
structure Candle where
  symbol : String
  interval : String
  start : Nat
  stop : Nat
  openPrice : Int
  high : Int
  low : Int
  close : Int
  volume : Int
  vwapOk : Bool
  deriving DecidableEq, Repr

/-- Two candle rows agree on the composite key (symbol, interval, start). -/
def sameKey (a b : Candle) : Bool :=
  a.symbol == b.symbol && a.interval == b.interval && a.start == b.start

/-- Store invariant: at most one row per composite key in the `candles`
table. -/
def KeyUnique (s : List Candle) : Prop :=
  List.Pairwise (fun a b => sameKey a b = false) s

instance (s : List Candle) : Decidable (KeyUnique s) :=
  inferInstanceAs
    (Decidable (List.Pairwise (fun a b => sameKey a b = false) s))

/-- Modelled from the spec: the upsert of one bar by composite key
(Candle Store `syncSymbol` contract) — a bar with an already-stored start
time is overwritten (full-row replace), others are inserted. -/
def upsert (s : List Candle) (c : Candle) : List Candle :=
  if s.any (fun r => sameKey r c) then
    s.map (fun r => if sameKey r c then c else r)
  else
    s ++ [c]

/-- A row matches a `readRange` query: same symbol and interval, and the
bar-start lies in the inclusive-start, exclusive-end window. -/
def matchesQuery (sym itv : String) (t0 t1 : Nat) (c : Candle) : Bool :=
  c.symbol == sym && c.interval == itv &&
    decide (t0 ≤ c.start) && decide (c.start < t1)

/-- Order on candles by bar-start time, used to model `ORDER BY start`. -/
def startLE (a b : Candle) : Prop := a.start ≤ b.start

instance : DecidableRel startLE := fun a b => Nat.decLe a.start b.start

instance : IsTotal Candle startLE := ⟨fun a b => Nat.le_total a.start b.start⟩

instance : IsTrans Candle startLE := ⟨fun _ _ _ h1 h2 => Nat.le_trans h1 h2⟩

/-- Modelled from the spec: `readRange(symbol, interval, startTime, endTime)`
reads only from the local cache, filtering on bar-start with an
inclusive-start, exclusive-end window, ordered ascending by start time.  The
module `local_candles.py` holding `get_candles_for_period` is missing from
the sources. -/
def readRange (s : List Candle) (sym itv : String) (t0 t1 : Nat) :
    List Candle :=
  List.insertionSort startLE (s.filter (matchesQuery sym itv t0 t1))

/-- The rows stored for one (symbol, interval) pair. -/
def rowsFor (s : List Candle) (sym itv : String) : List Candle :=
  s.filter (fun c => c.symbol == sym && c.interval == itv)

/-- Maximum bar-start among a list of rows, `none` on the empty list. -/
def maxStart : List Candle → Option Nat
  | [] => none
  | c :: cs =>
    match maxStart cs with
    | none => some c.start
    | some m => some (if c.start ≤ m then m else c.start)

/-- Modelled from the spec: the sync cursor for a (symbol, interval) pair is
the maximum stored bar-start-timestamp, absent when no rows exist.  The
module `local_candles.py` holding the cursor query is missing from the
sources. -/
def syncCursor (s : List Candle) (sym itv : String) : Option Nat :=
  maxStart (rowsFor s sym itv)

/-- Modelled from the spec: the half-open request window of one sync — the
bounded default lookback window when the cursor is absent, `[cursor, now)`
when it is present. -/
def syncRange (now lookback : Nat) (s : List Candle) (sym itv : String) :
    Nat × Nat :=
  match syncCursor s sym itv with
  | none => (now - lookback, now)
  | some cur => (cur, now)

/-- Errors surfaced by the API Gateway collaborator. -/
inductive GwError where
  | notFound : GwError
  | transient : GwError
  deriving DecidableEq, Repr

deriving instance DecidableEq for Except

/-- The candle side of the API Gateway: symbol, interval, window start,
window end. -/
def CandleGateway : Type :=
  String → String → Nat → Nat → Except GwError (List Candle)

/-- Modelled from the spec: `syncSymbol(symbol, interval)` computes the
sync cursor, requests exactly the window `syncRange` from the gateway, and
upserts every returned bar by composite key; a gateway failure is surfaced
directly.  The module `local_candles.py` holding
`update_candles_for_symbol` is missing from the sources. -/
def syncSymbol (gw : CandleGateway) (now lookback : Nat) (s : List Candle)
    (sym itv : String) : Except GwError (List Candle) :=
  match gw sym itv (syncRange now lookback s sym itv).1
      (syncRange now lookback s sym itv).2 with
  | Except.error e => Except.error e
  | Except.ok bars => Except.ok (bars.foldl upsert s)

/-- The finest granularity interval tracked by the candle cache. -/
def finestInterval : String := "OneMinute"

/-- The stored row with the greatest bar-start among a list of rows. -/
def latestRow : List Candle → Option Candle
  | [] => none
  | c :: cs =>
    match latestRow cs with
    | none => some c
    | some d => if d.start < c.start then some c else some d

/-- Modelled from the spec: `latestPrice(symbol)` returns the close price of
the most recent cached bar for the finest tracked interval, `none` (NoData)
when the symbol has no cached bars.  The module `local_candles.py` holding
`get_latest_price` is missing from the sources. -/
def getLatestPrice (s : List Candle) (sym : String) : Option Int :=
  (latestRow (rowsFor s sym finestInterval)).map (fun c => c.close)

/-- Modelled from the spec: a symbol record — keyed by ticker symbol, with
point-in-time metadata and the last-refreshed timestamp.  The module
`local_symbols.py` holding the concrete row type is missing from the
sources. -/
structure SymbolRecord where
  symbol : String
  description : String
  listingExchange : String
  securityType : String
  prevDayClosePrice : Int
  lastRefreshed : Nat
  deriving DecidableEq, Repr

/-- The symbol side of the API Gateway: `fetchSymbolDetail`. -/
def SymbolGateway : Type := String → Except GwError SymbolRecord

/-- Look up the cached record for a ticker symbol. -/
def lookupSymbol (st : List SymbolRecord) (sym : String) :
    Option SymbolRecord :=
  st.find? (fun r => r.symbol == sym)

/-- Modelled from the spec: insert or full-column overwrite keyed by
symbol. -/
def upsertSymbol (st : List SymbolRecord) (r : SymbolRecord) :
    List SymbolRecord :=
  if st.any (fun x => x.symbol == r.symbol) then
    st.map (fun x => if x.symbol == r.symbol then r else x)
  else
    st ++ [r]

/-- Symbol Store invariant: at most one record per symbol. -/
def SymUnique (st : List SymbolRecord) : Prop :=
  List.Pairwise (fun a b => a.symbol ≠ b.symbol) st

instance (st : List SymbolRecord) : Decidable (SymUnique st) :=
  inferInstanceAs
    (Decidable
      (List.Pairwise (fun (a b : SymbolRecord) => a.symbol ≠ b.symbol) st))

/-- Outcome of one `get` call: the returned record, the store afterwards,
and the observable effect counters (upstream gateway calls and write
transactions performed). -/
structure GetResult where
  record : SymbolRecord
  store : List SymbolRecord
  upstreamCalls : Nat
  writes : Nat
  deriving DecidableEq, Repr

/-- Modelled from the spec: the refresh path of `get` — request fresh
detail from the gateway, stamp it with the requested key and the
write time, upsert it, one upstream call and one write transaction. -/
def refreshSymbol (gw : SymbolGateway) (now : Nat) (st : List SymbolRecord)
    (sym : String) : Except GwError GetResult :=
  match gw sym with
  | Except.error e => Except.error e
  | Except.ok d =>
    Except.ok ⟨{ d with symbol := sym, lastRefreshed := now },
      upsertSymbol st { d with symbol := sym, lastRefreshed := now }, 1, 1⟩

/-- Modelled from the spec: `get(symbol, forceUpdate)` returns the cached
record when present and the force flag is off (no upstream call, no
write); otherwise it refreshes through the gateway.  The module
`local_symbols.py` holding `get_local_symbol` is missing from the
sources. -/
def getLocalSymbol (gw : SymbolGateway) (now : Nat) (st : List SymbolRecord)
    (sym : String) (forceUpdate : Bool) : Except GwError GetResult :=
  match lookupSymbol st sym with
  | some r =>
    if forceUpdate then refreshSymbol gw now st sym
    else Except.ok ⟨r, st, 0, 0⟩
  | none => refreshSymbol gw now st sym

/-- Modelled from the spec: `save_local_symbol` fetches detail for one
symbol, stores it, and returns the full record it stored together with the
new store.  The module `local_symbols.py` holding `save_local_symbol` is
missing from the sources. -/
def saveLocalSymbol (gw : SymbolGateway) (now : Nat)
    (st : List SymbolRecord) (sym : String) :
    Except GwError (SymbolRecord × List SymbolRecord) :=
  match gw sym with
  | Except.error e => Except.error e
  | Except.ok d =>
    Except.ok ({ d with symbol := sym, lastRefreshed := now },
      upsertSymbol st { d with symbol := sym, lastRefreshed := now })

/-- One step of the CSV import sweep: a malformed row (no symbol column) is
skipped; a valid row runs the cache-preferring `get` and counts a success,
with a per-row failure logged and skipped. -/
def importStep (gw : SymbolGateway) (now : Nat)
    (acc : List SymbolRecord × Nat) (row : Option String) :
    List SymbolRecord × Nat :=
  match row with
  | none => acc
  | some sym =>
    match getLocalSymbol gw now acc.1 sym false with
    | Except.ok res => (res.store, acc.2 + 1)
    | Except.error _ => acc

/-- Modelled from the spec: `importFromSource(tabularInput)` folds the
rows of the input through the cache-preferring `get`, counting successes
and never aborting the batch on one row's failure.  The module
`local_symbols.py` holding `import_symbols_from_csv` is missing from the
sources. -/
def importSymbolsFromCsv (gw : SymbolGateway) (now : Nat)
    (st : List SymbolRecord) (rows : List (Option String)) :
    List SymbolRecord × Nat :=
  rows.foldl (importStep gw now) (st, 0)

/-- One step of the `syncAll` sweep: sync one symbol, catching and skipping
a per-symbol failure; the counter tallies the successful syncs. -/
def sweepStep (gw : CandleGateway) (now lookback : Nat) (itv : String)
    (acc : List Candle × Nat) (sym : String) : List Candle × Nat :=
  match syncSymbol gw now lookback acc.1 sym itv with
  | Except.ok s' => (s', acc.2 + 1)
  | Except.error _ => acc

/-- Outcome of a full `syncAll` sweep: the candle store afterwards, the
snapshot copied aside (when a backup was requested), the number of
symbols attempted and the number of successful syncs. -/
structure SweepResult where
  store : List Candle
  backup : Option (List Candle)
  attempts : Nat
  successes : Nat
  deriving DecidableEq, Repr

/-- Modelled from the spec: `syncAll(interval, makeBackup)` iterates every
symbol known to the Symbol Store; when a backup is requested, the snapshot
is copied aside before the sweep begins, and if the backup target cannot be
written the whole sweep fails closed with zero syncs attempted.  The
`backupOk` flag models whether the backup target location is writable.  The
module `local_candles.py` holding `update_all_symbols` is missing from the
sources. -/
def updateAllSymbols (gw : CandleGateway) (now lookback : Nat)
    (symStore : List SymbolRecord) (cs : List Candle) (itv : String)
    (makeBackup backupOk : Bool) : Option SweepResult :=
  if makeBackup && !backupOk then none
  else
    let syms := symStore.map (fun r => r.symbol)
    let res := syms.foldl (sweepStep gw now lookback itv) (cs, 0)
    some ⟨res.1, if makeBackup then some cs else none, syms.length, res.2⟩

/-- Sample bar used by the concrete witnesses. -/
def cA : Candle :=
  ⟨"AAPL", "OneMinute", 5, 6, 10, 12, 9, 11, 100, true⟩

/-- Second sample bar, same series as `cA`, one bar later. -/
def cB : Candle :=
  ⟨"AAPL", "OneMinute", 6, 7, 11, 13, 10, 12, 150, true⟩

/-- A corrected version of `cA`: same composite key, different close. -/
def cA2 : Candle :=
  ⟨"AAPL", "OneMinute", 5, 6, 10, 12, 9, 99, 100, true⟩

/-- Sample bar for a second symbol. -/
def cC : Candle :=
  ⟨"MSFT", "OneMinute", 5, 6, 20, 22, 19, 21, 50, false⟩

/-- A deterministic sample candle gateway that always returns `cA`. -/
def gwA : CandleGateway := fun _ _ _ _ => Except.ok [cA]

/-- A sample candle gateway that fails on MSFT and returns `cA` for other
symbols. -/
def gwSkip : CandleGateway := fun sym _ _ _ =>
  if sym == "MSFT" then Except.error GwError.transient else Except.ok [cA]

/-- Sample symbol record used by the concrete witnesses. -/
def recA : SymbolRecord := ⟨"AAPL", "Apple Inc.", "NASDAQ", "Stock", 11, 0⟩

/-- Second sample symbol record. -/
def recM : SymbolRecord :=
  ⟨"MSFT", "Microsoft Corporation", "NASDAQ", "Stock", 21, 0⟩

/-- A deterministic sample symbol gateway serving AAPL and MSFT. -/
def gwS : SymbolGateway := fun sym =>
  if sym == "AAPL" then Except.ok recA
  else if sym == "MSFT" then Except.ok recM
  else Except.error GwError.notFound

/-- A sample symbol gateway that serves detail for every symbol. -/
def gwAll : SymbolGateway := fun sym =>
  Except.ok { recA with symbol := sym }

/-- A sample tabular input with eight valid symbol rows and two malformed
rows. -/
def rows8 : List (Option String) :=
  [some "S1", some "S2", none, some "S3", some "S4", some "S5", none,
   some "S6", some "S7", some "S8"]

theorem sameKey_iff {a b : Candle} :
    sameKey a b = true ↔
      a.symbol = b.symbol ∧ a.interval = b.interval ∧ a.start = b.start := by
  simp [sameKey, Bool.and_eq_true, and_assoc]

theorem sameKey_refl (a : Candle) : sameKey a a = true := by
  simp [sameKey_iff]

theorem sameKey_symm {a b : Candle} (h : sameKey a b = true) :
    sameKey b a = true := by
  rw [sameKey_iff] at h ⊢
  exact ⟨h.1.symm, h.2.1.symm, h.2.2.symm⟩

theorem sameKey_trans {a b c : Candle} (h1 : sameKey a b = true)
    (h2 : sameKey b c = true) : sameKey a c = true := by
  rw [sameKey_iff] at h1 h2 ⊢
  exact ⟨h1.1.trans h2.1, h1.2.1.trans h2.2.1, h1.2.2.trans h2.2.2⟩

theorem sameKey_false_of_not {a b : Candle} (h : ¬ sameKey a b = true) :
    sameKey a b = false := by
  cases hx : sameKey a b with
  | false => rfl
  | true => exact absurd hx h

theorem matchesQuery_iff {sym itv : String} {t0 t1 : Nat} {c : Candle} :
    matchesQuery sym itv t0 t1 c = true ↔
      c.symbol = sym ∧ c.interval = itv ∧ t0 ≤ c.start ∧ c.start < t1 := by
  simp [matchesQuery, Bool.and_eq_true, and_assoc]

theorem KeyUnique_nil : KeyUnique [] := List.Pairwise.nil

/-- Upserting one bar preserves the at-most-one-row-per-key invariant. -/
theorem KeyUnique_upsert {s : List Candle} (hs : KeyUnique s) (c : Candle) :
    KeyUnique (upsert s c) := by
  unfold upsert
  by_cases h : s.any (fun r => sameKey r c) = true
  · rw [if_pos h]
    rw [KeyUnique, List.pairwise_map]
    refine hs.imp_of_mem ?_
    intro a b _ _ hab
    by_cases ha : sameKey a c = true
    · by_cases hb : sameKey b c = true
      · exact absurd (sameKey_trans ha (sameKey_symm hb)) (by simp [hab])
      · simp only [ha, if_pos, hb]
        refine sameKey_false_of_not ?_
        intro hcb
        exact hb (sameKey_symm hcb)
    · by_cases hb : sameKey b c = true
      · simp only [ha, hb, if_pos, if_neg]
        exact sameKey_false_of_not ha
      · simp only [ha, hb, if_neg]
        exact hab
  · rw [if_neg h]
    rw [KeyUnique, List.pairwise_append]
    refine ⟨hs, List.pairwise_singleton _ _, ?_⟩
    intro a ha b hb
    simp only [List.mem_singleton] at hb
    subst hb
    simp only [List.any_eq_true, not_exists, not_and] at h
    exact sameKey_false_of_not (h a ha)

/-- Folding a batch of upserts (one sync's returned bars) preserves the
key-uniqueness invariant. -/
theorem KeyUnique_foldl_upsert {s : List Candle} (hs : KeyUnique s)
    (bars : List Candle) : KeyUnique (bars.foldl upsert s) := by
  induction bars generalizing s with
  | nil => exact hs
  | cons b bs ih => exact ih (KeyUnique_upsert hs b)

/-- The upserted bar is a row of the store afterwards. -/
theorem mem_upsert_self (s : List Candle) (c : Candle) : c ∈ upsert s c := by
  unfold upsert
  by_cases h : s.any (fun r => sameKey r c) = true
  · rw [if_pos h]
    simp only [List.any_eq_true] at h
    obtain ⟨r, hr, hrc⟩ := h
    refine List.mem_map.2 ⟨r, hr, ?_⟩
    simp [hrc]
  · rw [if_neg h]
    exact List.mem_append_right s (List.mem_singleton.2 rfl)

/-- A stored row whose key differs from the upserted bar survives the
upsert unchanged. -/
theorem mem_upsert_of_mem {s : List Candle} {c : Candle} (d : Candle)
    (hc : c ∈ s) (hne : sameKey c d = false) : c ∈ upsert s d := by
  unfold upsert
  by_cases h : s.any (fun r => sameKey r d) = true
  · rw [if_pos h]
    refine List.mem_map.2 ⟨c, hc, ?_⟩
    simp [hne]
  · rw [if_neg h]
    exact List.mem_append_left _ hc

/-- Every row of the upserted store is either the new bar or a row of the
old store whose key differs from the new bar. -/
theorem mem_of_mem_upsert {s : List Candle} {c d : Candle}
    (h : d ∈ upsert s c) : d = c ∨ (d ∈ s ∧ sameKey d c = false) := by
  unfold upsert at h
  by_cases hx : s.any (fun r => sameKey r c) = true
  · rw [if_pos hx] at h
    obtain ⟨r, hr, hrd⟩ := List.mem_map.1 h
    by_cases hrc : sameKey r c = true
    · left
      rw [if_pos hrc] at hrd
      exact hrd.symm
    · right
      rw [if_neg hrc] at hrd
      subst hrd
      exact ⟨hr, sameKey_false_of_not hrc⟩
  · rw [if_neg hx] at h
    rcases List.mem_append.1 h with h1 | h1
    · by_cases hdc : sameKey d c = true
      · simp only [List.any_eq_true, not_exists, not_and] at hx
        exact absurd hdc (hx d h1)
      · exact Or.inr ⟨h1, sameKey_false_of_not hdc⟩
    · exact Or.inl (List.mem_singleton.1 h1)

/-- In a key-unique store, any two rows sharing a key are the same row. -/
theorem eq_of_mem_of_sameKey {s : List Candle} (hs : KeyUnique s)
    {a b : Candle} (ha : a ∈ s) (hb : b ∈ s) (hk : sameKey a b = true) :
    a = b := by
  by_contra hne
  have := hs.forall (fun x y hxy => by
    exact sameKey_false_of_not (fun h => by simp [sameKey_symm h] at hxy))
    ha hb hne
  simp [hk] at this

theorem maxStart_eq_none_iff {l : List Candle} :
    maxStart l = none ↔ l = [] := by
  cases l with
  | nil => simp [maxStart]
  | cons c cs =>
    simp only [maxStart]
    cases hx : maxStart cs <;> simp

theorem maxStart_mem {l : List Candle} {m : Nat} (h : maxStart l = some m) :
    ∃ c ∈ l, c.start = m := by
  induction l with
  | nil => simp [maxStart] at h
  | cons c cs ih =>
    simp only [maxStart] at h
    cases hx : maxStart cs with
    | none =>
      rw [hx] at h
      simp only [Option.some.injEq] at h
      exact ⟨c, List.mem_cons_self c cs, h⟩
    | some k =>
      rw [hx] at h
      simp only [Option.some.injEq] at h
      by_cases hk : c.start ≤ k
      · rw [if_pos hk] at h
        obtain ⟨d, hd, hdk⟩ := ih (hx.trans (congrArg some h))
        exact ⟨d, List.mem_cons_of_mem c hd, hdk⟩
      · rw [if_neg hk] at h
        exact ⟨c, List.mem_cons_self c cs, h⟩

theorem maxStart_le {l : List Candle} :
    ∀ {m : Nat}, maxStart l = some m → ∀ c ∈ l, c.start ≤ m := by
  induction l with
  | nil => simp
  | cons c cs ih =>
    intro m h
    simp only [maxStart] at h
    intro d hd
    rcases List.mem_cons.1 hd with rfl | hdm
    · cases hx : maxStart cs with
      | none => rw [hx] at h; simp only [Option.some.injEq] at h; omega
      | some k =>
        rw [hx] at h
        simp only [Option.some.injEq] at h
        by_cases hk : d.start ≤ k <;> simp only [hk, if_pos, if_neg,
          not_false_iff] at h <;> omega
    · cases hx : maxStart cs with
      | none =>
        have : cs = [] := maxStart_eq_none_iff.1 hx
        subst this
        cases hdm
      | some k =>
        rw [hx] at h
        simp only [Option.some.injEq] at h
        have := ih hx d hdm
        by_cases hk : c.start ≤ k <;> simp only [hk, if_pos, if_neg,
          not_false_iff] at h <;> omega

/-- A row already stored is untouched by re-upserting it: in a key-unique
store, upserting a bar that is already a row is the identity. -/
theorem upsert_mem_eq {s : List Candle} (hs : KeyUnique s) {c : Candle}
    (hc : c ∈ s) : upsert s c = s := by
  unfold upsert
  have hany : s.any (fun r => sameKey r c) = true :=
    List.any_eq_true.2 ⟨c, hc, sameKey_refl c⟩
  rw [if_pos hany]
  have : ∀ r ∈ s, (if sameKey r c = true then c else r) = r := by
    intro r hr
    by_cases hrc : sameKey r c = true
    · rw [if_pos hrc, eq_of_mem_of_sameKey hs hc hr (sameKey_symm hrc)]
    · rw [if_neg hrc]
  calc s.map (fun r => if sameKey r c = true then c else r)
      = s.map id := List.map_congr_left this
    _ = s := List.map_id s

/-- Re-upserting a batch of already-stored bars is the identity. -/
theorem foldl_upsert_subset_eq {s : List Candle} (hs : KeyUnique s)
    {bars : List Candle} (hb : ∀ c ∈ bars, c ∈ s) :
    bars.foldl upsert s = s := by
  induction bars with
  | nil => rfl
  | cons b bs ih =>
    have hb0 : b ∈ s := hb b (List.mem_cons_self b bs)
    have h1 : upsert s b = s := upsert_mem_eq hs hb0
    simp only [List.foldl_cons, h1]
    exact ih (fun c hc => hb c (List.mem_cons_of_mem b hc))

/-- `syncSymbol` succeeds exactly when the gateway call on the computed
window succeeds, and then the new store is the batch of returned bars
upserted into the old one. -/
theorem syncSymbol_ok_iff {gw : CandleGateway} {now lookback : Nat}
    {s : List Candle} {sym itv : String} {s' : List Candle} :
    syncSymbol gw now lookback s sym itv = Except.ok s' ↔
      ∃ bars, gw sym itv (syncRange now lookback s sym itv).1
          (syncRange now lookback s sym itv).2 = Except.ok bars ∧
        s' = bars.foldl upsert s := by
  unfold syncSymbol
  cases hgw : gw sym itv (syncRange now lookback s sym itv).1
      (syncRange now lookback s sym itv).2 with
  | error e => simp
  | ok bars => simp [eq_comm]

/-- A successful sync preserves the key-uniqueness invariant. -/
theorem KeyUnique_syncSymbol {gw : CandleGateway} {now lookback : Nat}
    {s : List Candle} {sym itv : String} {s' : List Candle}
    (hs : KeyUnique s)
    (h : syncSymbol gw now lookback s sym itv = Except.ok s') :
    KeyUnique s' := by
  obtain ⟨bars, _, rfl⟩ := syncSymbol_ok_iff.1 h
  exact KeyUnique_foldl_upsert hs bars

/-- In a key-unique store, `readRange` output has strictly increasing
bar-start timestamps. -/
theorem readRange_pairwise_lt {s : List Candle} (hs : KeyUnique s)
    (sym itv : String) (t0 t1 : Nat) :
    List.Pairwise (fun a b => a.start < b.start)
      (readRange s sym itv t0 t1) := by
  set p := matchesQuery sym itv t0 t1 with hp
  have hfil : KeyUnique (s.filter p) :=
    List.Pairwise.sublist (List.filter_sublist s) hs
  have hne : List.Pairwise (fun a b => a.start ≠ b.start) (s.filter p) := by
    refine hfil.imp_of_mem ?_
    intro a b ha hb hab hst
    have hpa := (List.mem_filter.1 ha).2
    have hpb := (List.mem_filter.1 hb).2
    rw [hp] at hpa hpb
    rw [matchesQuery_iff] at hpa hpb
    have : sameKey a b = true :=
      sameKey_iff.2 ⟨hpa.1.trans hpb.1.symm, hpa.2.1.trans hpb.2.1.symm, hst⟩
    simp [this] at hab
  have hperm := List.perm_insertionSort startLE (s.filter p)
  have hne2 : List.Pairwise (fun a b => a.start ≠ b.start)
      (List.insertionSort startLE (s.filter p)) := by
    refine (hperm.pairwise_iff ?_).2 hne
    intro x y h
    exact Ne.symm h
  have hle : List.Pairwise startLE
      (List.insertionSort startLE (s.filter p)) :=
    List.sorted_insertionSort startLE (s.filter p)
  have := hle.and hne2
  refine this.imp ?_
  intro a b hab
  exact lt_of_le_of_ne hab.1 hab.2

/-- C3: for every (symbol, interval) pair and every time window, `readRange`
on a key-unique store returns rows in strictly increasing bar-start order
with no duplicate start time, and the key-uniqueness invariant holds of the
empty store and is preserved by `upsert`, by batches of upserts, and by
every successful `syncSymbol`. -/
theorem readRange_strictly_increasing :
    (∀ (s : List Candle) (sym itv : String) (t0 t1 : Nat), KeyUnique s →
      List.Pairwise (fun a b => a.start < b.start)
        (readRange s sym itv t0 t1)) ∧
    KeyUnique [] ∧
    (∀ (s : List Candle) (c : Candle), KeyUnique s →
      KeyUnique (upsert s c)) ∧
    (∀ (s bars : List Candle), KeyUnique s →
      KeyUnique (bars.foldl upsert s)) ∧
    (∀ (gw : CandleGateway) (now lookback : Nat) (s0 : List Candle)
      (sym itv : String) (s' : List Candle), KeyUnique s0 →
      syncSymbol gw now lookback s0 sym itv = Except.ok s' → KeyUnique s') :=
  ⟨fun _ sym itv t0 t1 hs => readRange_pairwise_lt hs sym itv t0 t1,
   KeyUnique_nil,
   fun _ c hs => KeyUnique_upsert hs c,
   fun _ bars hs => KeyUnique_foldl_upsert hs bars,
   fun _ _ _ _ _ _ _ hs h => KeyUnique_syncSymbol hs h⟩

/-- Concrete run of C3: a two-bar key-unique store read back over a window
comes out in strictly increasing start order, and the invariant survives an
upsert. -/
theorem readRange_strictly_increasing_witness :
    List.Pairwise (fun a b => a.start < b.start)
      (readRange [cB, cA] "AAPL" "OneMinute" 0 100) ∧
    KeyUnique (upsert [cA] cB) :=
  ⟨readRange_strictly_increasing.1 [cB, cA] "AAPL" "OneMinute" 0 100
      (by decide),
   readRange_strictly_increasing.2.2.1 [cA] cB (by decide)⟩

/-- C1: syncing a symbol twice in succession with no new upstream data is a
no-op on the second call — when every bar the gateway returns for the
second request window is already a row of the store the first call
produced, the second `syncSymbol` returns that store unchanged, inserting
zero new rows. -/
theorem syncSymbol_idempotent (gw : CandleGateway) (now lookback : Nat)
    (s s1 bars2 : List Candle) (sym itv : String)
    (hku : KeyUnique s)
    (h1 : syncSymbol gw now lookback s sym itv = Except.ok s1)
    (h2 : gw sym itv (syncRange now lookback s1 sym itv).1
        (syncRange now lookback s1 sym itv).2 = Except.ok bars2)
    (hnonew : ∀ c ∈ bars2, c ∈ s1) :
    syncSymbol gw now lookback s1 sym itv = Except.ok s1 := by
  have hku1 : KeyUnique s1 := KeyUnique_syncSymbol hku h1
  refine syncSymbol_ok_iff.2 ⟨bars2, h2, ?_⟩
  exact (foldl_upsert_subset_eq hku1 hnonew).symm

/-- Concrete run of C1: after a first sync fills the empty store with one
bar, a second sync against the same upstream data returns the store
unchanged. -/
theorem syncSymbol_idempotent_witness :
    syncSymbol gwA 10 10 [cA] "AAPL" "OneMinute" = Except.ok [cA] :=
  syncSymbol_idempotent gwA 10 10 [] [cA] [cA] "AAPL" "OneMinute"
    (by decide) (by decide) (by decide) (by decide)

/-- Membership in the per-pair row selection. -/
theorem mem_rowsFor_iff {s : List Candle} {sym itv : String} {c : Candle} :
    c ∈ rowsFor s sym itv ↔
      c ∈ s ∧ c.symbol = sym ∧ c.interval = itv := by
  simp [rowsFor, List.mem_filter, Bool.and_eq_true]

/-- A stored row matching the query appears in the `readRange` output. -/
theorem mem_readRange {s : List Candle} {sym itv : String} {t0 t1 : Nat}
    {c : Candle} (hc : c ∈ s)
    (hq : matchesQuery sym itv t0 t1 c = true) :
    c ∈ readRange s sym itv t0 t1 := by
  unfold readRange
  rw [List.mem_insertionSort]
  exact List.mem_filter.2 ⟨hc, hq⟩

/-- Every `readRange` output row is a stored row matching the query. -/
theorem mem_of_mem_readRange {s : List Candle} {sym itv : String}
    {t0 t1 : Nat} {r : Candle} (hr : r ∈ readRange s sym itv t0 t1) :
    r ∈ s ∧ matchesQuery sym itv t0 t1 r = true := by
  unfold readRange at hr
  rw [List.mem_insertionSort] at hr
  exact ⟨(List.mem_filter.1 hr).1, (List.mem_filter.1 hr).2⟩

/-- A stored bar survives a batch of upserts whenever every bar of the
batch sharing its key is the bar itself. -/
theorem mem_foldl_upsert_of_mem {s : List Candle} {c : Candle} (hc : c ∈ s)
    {bars : List Candle} (h : ∀ d ∈ bars, sameKey d c = true → d = c) :
    c ∈ bars.foldl upsert s := by
  induction bars generalizing s with
  | nil => exact hc
  | cons b bs ih =>
    simp only [List.foldl_cons]
    refine ih ?_ (fun d hd => h d (List.mem_cons_of_mem b hd))
    by_cases hbc : sameKey b c = true
    · have hb := h b (List.mem_cons_self b bs) hbc
      subst hb
      exact mem_upsert_self s b
    · exact mem_upsert_of_mem b hc
        (sameKey_false_of_not (fun hcb => hbc (sameKey_symm hcb)))

/-- A bar of the batch ends up stored after the batch of upserts whenever
every later bar sharing its key is the bar itself. -/
theorem mem_foldl_upsert_of_mem_bars {bars : List Candle} {c : Candle}
    (hc : c ∈ bars) (h : ∀ d ∈ bars, sameKey d c = true → d = c)
    (s : List Candle) : c ∈ bars.foldl upsert s := by
  induction bars generalizing s with
  | nil => cases hc
  | cons b bs ih =>
    simp only [List.foldl_cons]
    rcases List.mem_cons.1 hc with rfl | hm
    · exact mem_foldl_upsert_of_mem (mem_upsert_self s c)
        (fun d hd => h d (List.mem_cons_of_mem c hd))
    · exact ih hm (fun d hd => h d (List.mem_cons_of_mem b hd)) _

/-- Upserting a bar whose key is already stored keeps the row count. -/
theorem upsert_length_of_exists {s : List Candle} {c : Candle}
    (h : ∃ r ∈ s, sameKey r c = true) :
    (upsert s c).length = s.length := by
  unfold upsert
  rw [if_pos (List.any_eq_true.2 h)]
  exact List.length_map s _

/-- Upserting a bar with an already-stored key evicts the old row. -/
theorem not_mem_upsert_of_overwritten {s : List Candle} {c r : Candle}
    (hr : r ∈ s) (hk : sameKey r c = true) (hne : r ≠ c) :
    r ∉ upsert s c := by
  unfold upsert
  rw [if_pos (List.any_eq_true.2 ⟨r, hr, hk⟩)]
  intro hmem
  obtain ⟨x, hx, hxr⟩ := List.mem_map.1 hmem
  by_cases hxc : sameKey x c = true
  · rw [if_pos hxc] at hxr
    exact hne hxr.symm
  · rw [if_neg hxc] at hxr
    subst hxr
    exact hxc hk

/-- Upserting a bar whose key is fresh appends it. -/
theorem upsert_eq_append {s : List Candle} {c : Candle}
    (h : ∀ r ∈ s, sameKey r c = false) : upsert s c = s ++ [c] := by
  unfold upsert
  rw [if_neg]
  simp only [List.any_eq_true, not_exists, not_and]
  intro r hr
  simp [h r hr]

/-- C2: a bar upserted by a successful `syncSymbol` (and not overwritten by
another bar of the same batch) is returned by any subsequent `readRange`
whose window contains its start time, with identical OHLCV values — it is
the unique returned row with that start time until a later sync overwrites
the key; moreover an upsert with an already-stored key overwrites that row
in place (row count kept, old row evicted), and a fresh-key upsert inserts
the bar. -/
theorem syncSymbol_readRange_roundtrip :
    (∀ (gw : CandleGateway) (now lookback t0 t1 : Nat)
       (s s' bars : List Candle) (sym itv : String) (c : Candle),
       KeyUnique s →
       syncSymbol gw now lookback s sym itv = Except.ok s' →
       gw sym itv (syncRange now lookback s sym itv).1
         (syncRange now lookback s sym itv).2 = Except.ok bars →
       c ∈ bars → (∀ d ∈ bars, sameKey d c = true → d = c) →
       t0 ≤ c.start → c.start < t1 →
       c ∈ readRange s' c.symbol c.interval t0 t1 ∧
       ∀ r ∈ readRange s' c.symbol c.interval t0 t1,
         r.start = c.start → r = c) ∧
    (∀ (s : List Candle) (c r : Candle), r ∈ s → sameKey r c = true →
       (upsert s c).length = s.length ∧ c ∈ upsert s c ∧
       (r ≠ c → r ∉ upsert s c)) ∧
    (∀ (s : List Candle) (c : Candle), (∀ r ∈ s, sameKey r c = false) →
       upsert s c = s ++ [c]) := by
  refine ⟨?_, ?_, ?_⟩
  · intro gw now lookback t0 t1 s s' bars sym itv c hku hsync hgw hcb huniq
      ht0 ht1
    obtain ⟨bars2, hgw2, hs'⟩ := syncSymbol_ok_iff.1 hsync
    rw [hgw] at hgw2
    have hbars : bars2 = bars := by
      injection hgw2 with h
      exact h.symm
    subst hbars
    subst hs'
    have hmem : c ∈ bars2.foldl upsert s :=
      mem_foldl_upsert_of_mem_bars hcb huniq s
    have hku' : KeyUnique (bars2.foldl upsert s) :=
      KeyUnique_foldl_upsert hku bars2
    have hq : matchesQuery c.symbol c.interval t0 t1 c = true :=
      matchesQuery_iff.2 ⟨rfl, rfl, ht0, ht1⟩
    refine ⟨mem_readRange hmem hq, ?_⟩
    intro r hr hst
    obtain ⟨hrmem, hrq⟩ := mem_of_mem_readRange hr
    rw [matchesQuery_iff] at hrq
    exact eq_of_mem_of_sameKey hku' hrmem hmem
      (sameKey_iff.2 ⟨hrq.1, hrq.2.1, hst⟩)
  · intro s c r hr hk
    exact ⟨upsert_length_of_exists ⟨r, hr, hk⟩, mem_upsert_self s c,
      fun hne => not_mem_upsert_of_overwritten hr hk hne⟩
  · intro s c h
    exact upsert_eq_append h

/-- Concrete run of C2: the bar stored by a sync is read back identically;
overwriting a stored key keeps one row and evicts the old row; a fresh key
is appended. -/
theorem syncSymbol_readRange_roundtrip_witness :
    (cA ∈ readRange [cA] cA.symbol cA.interval 0 100 ∧
      ∀ r ∈ readRange [cA] cA.symbol cA.interval 0 100,
        r.start = cA.start → r = cA) ∧
    ((upsert [cA] cA2).length = 1 ∧ cA2 ∈ upsert [cA] cA2 ∧
      (cA ≠ cA2 → cA ∉ upsert [cA] cA2)) ∧
    upsert [cA] cB = [cA] ++ [cB] := by
  refine ⟨?_, ?_, ?_⟩
  · exact syncSymbol_readRange_roundtrip.1 gwA 10 10 0 100 [] [cA] [cA]
      "AAPL" "OneMinute" cA (by decide) (by decide) (by decide) (by decide)
      (by decide) (by decide) (by decide)
  · exact syncSymbol_readRange_roundtrip.2.1 [cA] cA2 cA (by decide)
      (by decide)
  · exact syncSymbol_readRange_roundtrip.2.2 [cA] cB (by decide)

/-- C8: the sync cursor is the maximum stored bar-start-timestamp for the
(symbol, interval) pair — when no rows exist the cursor is absent and the
requested window is the bounded default lookback window ending at now;
when rows exist the cursor is the maximum stored start and the requested
window is exactly [cursor, now); and `syncSymbol` requests exactly the
window `syncRange` computes. -/
theorem syncCursor_is_max_start :
    (∀ (s : List Candle) (sym itv : String) (now lookback : Nat),
      (∀ r ∈ s, ¬(r.symbol = sym ∧ r.interval = itv)) →
      syncCursor s sym itv = none ∧
      syncRange now lookback s sym itv = (now - lookback, now)) ∧
    (∀ (s : List Candle) (sym itv : String) (now lookback : Nat)
       (r : Candle), r ∈ s → r.symbol = sym → r.interval = itv →
      ∃ m, syncCursor s sym itv = some m ∧
        (∃ d ∈ s, d.symbol = sym ∧ d.interval = itv ∧ d.start = m) ∧
        (∀ d ∈ s, d.symbol = sym → d.interval = itv → d.start ≤ m) ∧
        syncRange now lookback s sym itv = (m, now)) ∧
    (∀ (gw : CandleGateway) (now lookback : Nat) (s : List Candle)
       (sym itv : String) (bars : List Candle),
       gw sym itv (syncRange now lookback s sym itv).1
         (syncRange now lookback s sym itv).2 = Except.ok bars →
       syncSymbol gw now lookback s sym itv =
         Except.ok (bars.foldl upsert s)) := by
  refine ⟨?_, ?_, ?_⟩
  · intro s sym itv now lookback h
    have hrows : rowsFor s sym itv = [] := by
      rw [rowsFor, List.filter_eq_nil_iff]
      intro a ha
      simp only [Bool.and_eq_true, beq_iff_eq]
      intro hc
      exact h a ha ⟨hc.1, hc.2⟩
    have hc : syncCursor s sym itv = none := by
      rw [syncCursor, hrows]
      rfl
    refine ⟨hc, ?_⟩
    rw [syncRange, hc]
  · intro s sym itv now lookback r hr hsym hitv
    have hrmem : r ∈ rowsFor s sym itv := mem_rowsFor_iff.2 ⟨hr, hsym, hitv⟩
    have hne : rowsFor s sym itv ≠ [] := by
      intro h
      rw [h] at hrmem
      cases hrmem
    cases hm : maxStart (rowsFor s sym itv) with
    | none => exact absurd (maxStart_eq_none_iff.1 hm) hne
    | some m =>
      have hcur : syncCursor s sym itv = some m := hm
      obtain ⟨d, hd, hdm⟩ := maxStart_mem hm
      obtain ⟨hds, hdsym, hditv⟩ := mem_rowsFor_iff.1 hd
      refine ⟨m, hcur, ⟨d, hds, hdsym, hditv, hdm⟩, ?_, ?_⟩
      · intro e he hesym heitv
        exact maxStart_le hm e (mem_rowsFor_iff.2 ⟨he, hesym, heitv⟩)
      · rw [syncRange, hcur]
  · intro gw now lookback s sym itv bars hgw
    unfold syncSymbol
    rw [hgw]

/-- Concrete run of C8: the empty store requests the default lookback
window; a store holding two bars with starts 5 and 6 has cursor 6 and
requests [6, now); and the sync applies exactly the fetched batch. -/
theorem syncCursor_is_max_start_witness :
    (syncCursor [] "AAPL" "OneMinute" = none ∧
      syncRange 10 10 [] "AAPL" "OneMinute" = (0, 10)) ∧
    (∃ m, syncCursor [cA, cB] "AAPL" "OneMinute" = some m ∧
      (∃ d ∈ [cA, cB], d.symbol = "AAPL" ∧ d.interval = "OneMinute" ∧
        d.start = m) ∧
      (∀ d ∈ [cA, cB], d.symbol = "AAPL" → d.interval = "OneMinute" →
        d.start ≤ m) ∧
      syncRange 10 10 [cA, cB] "AAPL" "OneMinute" = (m, 10)) ∧
    syncSymbol gwA 10 10 [] "AAPL" "OneMinute" =
      Except.ok ([cA].foldl upsert []) := by
  refine ⟨?_, ?_, ?_⟩
  · exact syncCursor_is_max_start.1 [] "AAPL" "OneMinute" 10 10 (by decide)
  · exact syncCursor_is_max_start.2.1 [cA, cB] "AAPL" "OneMinute" 10 10 cA
      (by decide) (by decide) (by decide)
  · exact syncCursor_is_max_start.2.2 gwA 10 10 [] "AAPL" "OneMinute" [cA]
      (by decide)

/-- After an upsert the record stored under the upserted key is exactly the
upserted record. -/
theorem lookup_upsertSymbol_self (st : List SymbolRecord)
    (r : SymbolRecord) :
    lookupSymbol (upsertSymbol st r) r.symbol = some r := by
  unfold upsertSymbol
  by_cases h : st.any (fun x => x.symbol == r.symbol) = true
  · rw [if_pos h]
    induction st with
    | nil => simp at h
    | cons y ys ih =>
      simp only [List.map_cons]
      by_cases hy : y.symbol == r.symbol
      · rw [lookupSymbol]
        simp only [hy, if_pos, List.find?_cons]
        have : (r.symbol == r.symbol) = true := beq_self_eq_true _
        simp [this]
      · rw [lookupSymbol]
        simp only [hy, if_neg]
        rw [List.find?_cons]
        have hyn : (y.symbol == r.symbol) = false := by
          simp only [Bool.not_eq_true] at hy
          exact hy
        simp only [hyn, Bool.false_eq_true, if_false]
        have hys : ys.any (fun x => x.symbol == r.symbol) = true := by
          rcases List.any_eq_true.1 h with ⟨x, hx, hxr⟩
          rcases List.mem_cons.1 hx with rfl | hxs
          · simp [hxr] at hyn
          · exact List.any_eq_true.2 ⟨x, hxs, hxr⟩
        exact ih hys
  · rw [if_neg h]
    simp only [List.any_eq_true, not_exists, not_and] at h
    induction st with
    | nil =>
      rw [lookupSymbol]
      simp [List.find?_cons, beq_self_eq_true]
    | cons y ys ih =>
      rw [lookupSymbol, List.cons_append, List.find?_cons]
      have hyn : (y.symbol == r.symbol) = false := by
        have := h y (List.mem_cons_self y ys)
        simp only [Bool.not_eq_true] at this
        exact this
      simp only [hyn, Bool.false_eq_true, if_false]
      exact ih (fun x hx => h x (List.mem_cons_of_mem y hx))

/-- An upsert leaves the record stored under every other key unchanged. -/
theorem lookup_upsertSymbol_ne (st : List SymbolRecord) (r : SymbolRecord)
    {sym : String} (hne : sym ≠ r.symbol) :
    lookupSymbol (upsertSymbol st r) sym = lookupSymbol st sym := by
  unfold upsertSymbol
  by_cases h : st.any (fun x => x.symbol == r.symbol) = true
  · rw [if_pos h]
    clear h
    induction st with
    | nil => rfl
    | cons y ys ih =>
      simp only [List.map_cons]
      rw [lookupSymbol, List.find?_cons, lookupSymbol, List.find?_cons]
      by_cases hy : y.symbol == r.symbol
      · simp only [hy, if_pos]
        have h1 : (r.symbol == sym) = false := by
          simp only [beq_eq_false_iff_ne, ne_eq]
          exact fun hh => hne hh.symm
        have h2 : (y.symbol == sym) = false := by
          simp only [beq_eq_false_iff_ne, ne_eq]
          intro hh
          rw [← hh] at hne
          exact hne (by simpa using hy)
        simp only [h1, h2, Bool.false_eq_true, if_false]
        exact ih
      · simp only [hy, if_neg]
        by_cases hys : (y.symbol == sym) = true
        · simp [hys]
        · have h2 : (y.symbol == sym) = false := by
            simp only [Bool.not_eq_true] at hys
            exact hys
          simp only [h2, Bool.false_eq_true, if_false]
          exact ih
  · rw [if_neg h]
    clear h
    induction st with
    | nil =>
      rw [lookupSymbol, List.nil_append, lookupSymbol, List.find?_cons]
      have h1 : (r.symbol == sym) = false := by
        simp only [beq_eq_false_iff_ne, ne_eq]
        exact fun hh => hne hh.symm
      simp [h1, List.find?_nil]
    | cons y ys ih =>
      rw [lookupSymbol, List.cons_append, List.find?_cons, lookupSymbol,
        List.find?_cons]
      by_cases hys : (y.symbol == sym) = true
      · simp [hys]
      · have h2 : (y.symbol == sym) = false := by
          simp only [Bool.not_eq_true] at hys
          exact hys
        simp only [h2, Bool.false_eq_true, if_false]
        exact ih

/-- Upserting a symbol record preserves the one-record-per-symbol
invariant. -/
theorem SymUnique_upsertSymbol {st : List SymbolRecord} (hs : SymUnique st)
    (r : SymbolRecord) : SymUnique (upsertSymbol st r) := by
  unfold upsertSymbol
  by_cases h : st.any (fun x => x.symbol == r.symbol) = true
  · rw [if_pos h]
    rw [SymUnique, List.pairwise_map]
    refine hs.imp_of_mem ?_
    intro a b _ _ hab
    by_cases ha : a.symbol == r.symbol
    · by_cases hb : b.symbol == r.symbol
      · have ha' : a.symbol = r.symbol := by simpa using ha
        have hb' : b.symbol = r.symbol := by simpa using hb
        exact absurd (ha'.trans hb'.symm) hab
      · have ha' : a.symbol = r.symbol := by simpa using ha
        simp only [ha, hb, if_pos, if_neg]
        rw [← ha']
        exact hab
    · by_cases hb : b.symbol == r.symbol
      · have hb' : b.symbol = r.symbol := by simpa using hb
        simp only [ha, hb, if_pos, if_neg]
        rw [← hb']
        exact hab
      · simp only [ha, hb, if_neg]
        exact hab
  · rw [if_neg h]
    rw [SymUnique, List.pairwise_append]
    refine ⟨hs, List.pairwise_singleton _ _, ?_⟩
    intro a ha b hb
    simp only [List.mem_singleton] at hb
    subst hb
    simp only [List.any_eq_true, not_exists, not_and] at h
    have := h a ha
    simpa using this

/-- A cache hit: `get` with the force flag off returns the cached record,
the unchanged store, and performs zero upstream calls and zero writes. -/
theorem getLocalSymbol_hit {gw : SymbolGateway} {now : Nat}
    {st : List SymbolRecord} {sym : String} {r : SymbolRecord}
    (h : lookupSymbol st sym = some r) :
    getLocalSymbol gw now st sym false = Except.ok ⟨r, st, 0, 0⟩ := by
  unfold getLocalSymbol
  rw [h]
  rfl

/-- The refresh path: on a cache miss or with the force flag set, `get`
requests fresh detail, upserts the stamped record, and performs exactly one
upstream call and one write transaction. -/
theorem getLocalSymbol_refresh {gw : SymbolGateway} {now : Nat}
    {st : List SymbolRecord} {sym : String} {d : SymbolRecord}
    (hd : gw sym = Except.ok d) (forceUpdate : Bool)
    (h : lookupSymbol st sym = none ∨ forceUpdate = true) :
    getLocalSymbol gw now st sym forceUpdate =
      Except.ok ⟨{ d with symbol := sym, lastRefreshed := now },
        upsertSymbol st { d with symbol := sym, lastRefreshed := now },
        1, 1⟩ := by
  unfold getLocalSymbol refreshSymbol
  rcases h with h | h
  · rw [h, hd]
  · subst h
    cases hl : lookupSymbol st sym with
    | none => rw [hd]
    | some r =>
      simp only [if_pos]
      rw [hd]

/-- Every successful `get` leaves the store either unchanged or upserted
with one stamped record keyed by the requested symbol. -/
theorem getLocalSymbol_store_cases {gw : SymbolGateway} {now : Nat}
    {st : List SymbolRecord} {sym : String} {forceUpdate : Bool}
    {res : GetResult}
    (h : getLocalSymbol gw now st sym forceUpdate = Except.ok res) :
    res.store = st ∨
      ∃ d, gw sym = Except.ok d ∧
        res.record = { d with symbol := sym, lastRefreshed := now } ∧
        res.store =
          upsertSymbol st { d with symbol := sym, lastRefreshed := now } := by
  unfold getLocalSymbol refreshSymbol at h
  cases hl : lookupSymbol st sym with
  | some r =>
    rw [hl] at h
    cases forceUpdate with
    | false =>
      simp only [Bool.false_eq_true, if_false, Except.ok.injEq] at h
      subst h
      exact Or.inl rfl
    | true =>
      simp only [if_pos] at h
      cases hgw : gw sym with
      | error e => rw [hgw] at h; cases h
      | ok d =>
        rw [hgw] at h
        simp only [Except.ok.injEq] at h
        subst h
        exact Or.inr ⟨d, rfl, rfl, rfl⟩
  | none =>
    rw [hl] at h
    cases hgw : gw sym with
    | error e => rw [hgw] at h; cases h
    | ok d =>
      rw [hgw] at h
      simp only [Except.ok.injEq] at h
      subst h
      exact Or.inr ⟨d, rfl, rfl, rfl⟩

/-- A successful `get` preserves the one-record-per-symbol invariant. -/
theorem SymUnique_getLocalSymbol {gw : SymbolGateway} {now : Nat}
    {st : List SymbolRecord} {sym : String} {forceUpdate : Bool}
    {res : GetResult} (hs : SymUnique st)
    (h : getLocalSymbol gw now st sym forceUpdate = Except.ok res) :
    SymUnique res.store := by
  rcases getLocalSymbol_store_cases h with h1 | ⟨d, _, _, h1⟩
  · rw [h1]; exact hs
  · rw [h1]; exact SymUnique_upsertSymbol hs _

/-- Full case analysis of a successful `get`: either a cache hit (no
upstream call, no write, unchanged store, cached record returned) or a
refresh (one upstream call, one write, stamped record upserted and
returned). -/
theorem getLocalSymbol_ok_cases {gw : SymbolGateway} {now : Nat}
    {st : List SymbolRecord} {sym : String} {forceUpdate : Bool}
    {res : GetResult}
    (h : getLocalSymbol gw now st sym forceUpdate = Except.ok res) :
    (res.writes = 0 ∧ res.upstreamCalls = 0 ∧ res.store = st ∧
      lookupSymbol st sym = some res.record ∧ forceUpdate = false) ∨
    (res.writes = 1 ∧ res.upstreamCalls = 1 ∧
      ∃ d, gw sym = Except.ok d ∧
        res.record = { d with symbol := sym, lastRefreshed := now } ∧
        res.store =
          upsertSymbol st { d with symbol := sym, lastRefreshed := now }) := by
  unfold getLocalSymbol refreshSymbol at h
  cases hl : lookupSymbol st sym with
  | some r =>
    rw [hl] at h
    cases forceUpdate with
    | false =>
      simp only [Bool.false_eq_true, if_false, Except.ok.injEq] at h
      subst h
      exact Or.inl ⟨rfl, rfl, rfl, rfl, rfl⟩
    | true =>
      simp only [if_pos] at h
      cases hgw : gw sym with
      | error e => rw [hgw] at h; cases h
      | ok d =>
        rw [hgw] at h
        simp only [Except.ok.injEq] at h
        subst h
        exact Or.inr ⟨rfl, rfl, d, rfl, rfl, rfl⟩
  | none =>
    rw [hl] at h
    cases hgw : gw sym with
    | error e => rw [hgw] at h; cases h
    | ok d =>
      rw [hgw] at h
      simp only [Except.ok.injEq] at h
      subst h
      exact Or.inr ⟨rfl, rfl, d, rfl, rfl, rfl⟩

/-- After a write, the record stored under the requested symbol is the
returned record, stamped with the write time. -/
theorem getLocalSymbol_write_stamps {gw : SymbolGateway} {now : Nat}
    {st : List SymbolRecord} {sym : String} {forceUpdate : Bool}
    {res : GetResult}
    (h : getLocalSymbol gw now st sym forceUpdate = Except.ok res)
    (hw : res.writes = 1) :
    res.record.lastRefreshed = now ∧ res.record.symbol = sym ∧
      lookupSymbol res.store sym = some res.record := by
  rcases getLocalSymbol_ok_cases h with ⟨h0, _⟩ | ⟨_, _, d, _, hrec, hst⟩
  · rw [h0] at hw; cases hw
  · refine ⟨by rw [hrec], by rw [hrec], ?_⟩
    rw [hst, hrec]
    exact lookup_upsertSymbol_self st _

/-- C5: `get(symbol, forceUpdate=false)` with the symbol cached returns the
cached record with no upstream call and no write; with the symbol absent or
the force flag set, a successful `get` requests fresh detail, upserts it
keyed by symbol as a full-column overwrite, performs exactly one upstream
call and one write transaction, and returns the refreshed record — which is
exactly the record then stored under the symbol. -/
theorem getLocalSymbol_contract :
    (∀ (gw : SymbolGateway) (now : Nat) (st : List SymbolRecord)
       (sym : String) (r : SymbolRecord),
       lookupSymbol st sym = some r →
       getLocalSymbol gw now st sym false = Except.ok ⟨r, st, 0, 0⟩) ∧
    (∀ (gw : SymbolGateway) (now : Nat) (st : List SymbolRecord)
       (sym : String) (d : SymbolRecord) (forceUpdate : Bool),
       gw sym = Except.ok d →
       (lookupSymbol st sym = none ∨ forceUpdate = true) →
       getLocalSymbol gw now st sym forceUpdate =
         Except.ok ⟨{ d with symbol := sym, lastRefreshed := now },
           upsertSymbol st { d with symbol := sym, lastRefreshed := now },
           1, 1⟩ ∧
       lookupSymbol
           (upsertSymbol st { d with symbol := sym, lastRefreshed := now })
           sym =
         some { d with symbol := sym, lastRefreshed := now }) := by
  refine ⟨?_, ?_⟩
  · intro gw now st sym r h
    exact getLocalSymbol_hit h
  · intro gw now st sym d forceUpdate hd h
    refine ⟨getLocalSymbol_refresh hd forceUpdate h, ?_⟩
    exact lookup_upsertSymbol_self st _

/-- Concrete run of C5: a cache hit returns the cached record with zero
effects; a miss on the empty store refreshes through the gateway with one
call and one write. -/
theorem getLocalSymbol_contract_witness :
    getLocalSymbol gwS 7 [recA] "AAPL" false =
      Except.ok ⟨recA, [recA], 0, 0⟩ ∧
    getLocalSymbol gwS 7 [] "AAPL" false =
      Except.ok ⟨{ recA with symbol := "AAPL", lastRefreshed := 7 },
        upsertSymbol [] { recA with symbol := "AAPL", lastRefreshed := 7 },
        1, 1⟩ := by
  constructor
  · exact getLocalSymbol_contract.1 gwS 7 [recA] "AAPL" recA (by decide)
  · exact (getLocalSymbol_contract.2 gwS 7 [] "AAPL" recA false (by decide)
      (Or.inl (by decide))).1

/-- C10: when the gateway returns detail for a symbol, `save_local_symbol`
returns the full record it stored — the caller can read fields such as the
description from the return value, and the store holds exactly that record
under the symbol. -/
theorem saveLocalSymbol_returns_stored
    (gw : SymbolGateway) (now : Nat) (st : List SymbolRecord)
    (sym : String) (d : SymbolRecord) (hd : gw sym = Except.ok d) :
    ∃ r st', saveLocalSymbol gw now st sym = Except.ok (r, st') ∧
      lookupSymbol st' sym = some r ∧
      r.description = d.description := by
  refine ⟨{ d with symbol := sym, lastRefreshed := now },
    upsertSymbol st { d with symbol := sym, lastRefreshed := now },
    ?_, ?_, rfl⟩
  · unfold saveLocalSymbol
    rw [hd]
  · exact lookup_upsertSymbol_self st _

/-- Concrete run of C10: saving AAPL through the sample gateway returns the
stored record, whose description is readable from the return value. -/
theorem saveLocalSymbol_returns_stored_witness :
    ∃ r st', saveLocalSymbol gwS 7 [] "AAPL" = Except.ok (r, st') ∧
      lookupSymbol st' "AAPL" = some r ∧
      r.description = recA.description :=
  saveLocalSymbol_returns_stored gwS 7 [] "AAPL" recA (by decide)

/-- A successful `save_local_symbol` stores via the symbol-keyed upsert. -/
theorem saveLocalSymbol_ok_shape {gw : SymbolGateway} {now : Nat}
    {st : List SymbolRecord} {sym : String} {r : SymbolRecord}
    {st' : List SymbolRecord}
    (h : saveLocalSymbol gw now st sym = Except.ok (r, st')) :
    ∃ d, gw sym = Except.ok d ∧
      r = { d with symbol := sym, lastRefreshed := now } ∧
      st' = upsertSymbol st { d with symbol := sym, lastRefreshed := now } := by
  unfold saveLocalSymbol at h
  cases hgw : gw sym with
  | error e => rw [hgw] at h; cases h
  | ok d =>
    rw [hgw] at h
    simp only [Except.ok.injEq, Prod.mk.injEq] at h
    exact ⟨d, rfl, h.1.symm, h.2.symm⟩

/-- The CSV import sweep preserves the one-record-per-symbol invariant. -/
theorem SymUnique_importFold (gw : SymbolGateway) (now : Nat)
    (rows : List (Option String)) :
    ∀ acc : List SymbolRecord × Nat, SymUnique acc.1 →
      SymUnique ((rows.foldl (importStep gw now) acc).1) := by
  induction rows with
  | nil => intro acc h; exact h
  | cons row rest ih =>
    intro acc h
    simp only [List.foldl_cons]
    refine ih _ ?_
    unfold importStep
    cases row with
    | none => exact h
    | some sym =>
      cases hg : getLocalSymbol gw now acc.1 sym false with
      | ok res =>
        simp only [hg]
        exact SymUnique_getLocalSymbol h hg
      | error e =>
        simp only [hg]
        exact h

/-- C9: the Symbol Store holds at most one record per symbol — the
invariant holds of the empty store and is preserved by the upsert, by
`get`, by `save_local_symbol` and by the CSV import sweep — and the
last-refreshed timestamp is stamped with the write time on every write,
hence monotonically non-decreasing across successive writes for the same
symbol as time moves forward. -/
theorem symbol_store_invariant :
    SymUnique [] ∧
    (∀ (st : List SymbolRecord) (r : SymbolRecord), SymUnique st →
      SymUnique (upsertSymbol st r)) ∧
    (∀ (gw : SymbolGateway) (now : Nat) (st : List SymbolRecord)
       (sym : String) (forceUpdate : Bool) (res : GetResult), SymUnique st →
      getLocalSymbol gw now st sym forceUpdate = Except.ok res →
      SymUnique res.store) ∧
    (∀ (gw : SymbolGateway) (now : Nat) (st : List SymbolRecord)
       (sym : String) (r : SymbolRecord) (st' : List SymbolRecord),
      SymUnique st →
      saveLocalSymbol gw now st sym = Except.ok (r, st') →
      SymUnique st') ∧
    (∀ (gw : SymbolGateway) (now : Nat) (st : List SymbolRecord)
       (rows : List (Option String)), SymUnique st →
      SymUnique (importSymbolsFromCsv gw now st rows).1) ∧
    (∀ (gw : SymbolGateway) (now : Nat) (st : List SymbolRecord)
       (sym : String) (forceUpdate : Bool) (res : GetResult),
      getLocalSymbol gw now st sym forceUpdate = Except.ok res →
      res.writes = 1 →
      res.record.lastRefreshed = now ∧
      lookupSymbol res.store sym = some res.record) ∧
    (∀ (gw1 gw2 : SymbolGateway) (now1 now2 : Nat)
       (st : List SymbolRecord) (sym : String) (f1 f2 : Bool)
       (res1 res2 : GetResult),
      now1 ≤ now2 →
      getLocalSymbol gw1 now1 st sym f1 = Except.ok res1 →
      res1.writes = 1 →
      getLocalSymbol gw2 now2 res1.store sym f2 = Except.ok res2 →
      res2.writes = 1 →
      res1.record.lastRefreshed ≤ res2.record.lastRefreshed) := by
  refine ⟨List.Pairwise.nil, ?_, ?_, ?_, ?_, ?_, ?_⟩
  · intro st r hs
    exact SymUnique_upsertSymbol hs r
  · intro gw now st sym forceUpdate res hs h
    exact SymUnique_getLocalSymbol hs h
  · intro gw now st sym r st' hs h
    obtain ⟨d, _, _, hst'⟩ := saveLocalSymbol_ok_shape h
    rw [hst']
    exact SymUnique_upsertSymbol hs _
  · intro gw now st rows hs
    exact SymUnique_importFold gw now rows (st, 0) hs
  · intro gw now st sym forceUpdate res h hw
    obtain ⟨h1, _, h3⟩ := getLocalSymbol_write_stamps h hw
    exact ⟨h1, h3⟩
  · intro gw1 gw2 now1 now2 st sym f1 f2 res1 res2 hle h1 hw1 h2 hw2
    have e1 := (getLocalSymbol_write_stamps h1 hw1).1
    have e2 := (getLocalSymbol_write_stamps h2 hw2).1
    rw [e1, e2]
    exact hle

/-- Concrete run of C9: the invariant survives an upsert of a second
symbol, and a concrete refresh stamps the stored record with the write
time. -/
theorem symbol_store_invariant_witness :
    SymUnique (upsertSymbol [recA] recM) ∧
    (({ recA with symbol := "AAPL", lastRefreshed := 7 } :
        SymbolRecord).lastRefreshed = 7 ∧
      lookupSymbol
          (upsertSymbol []
            { recA with symbol := "AAPL", lastRefreshed := 7 }) "AAPL" =
        some { recA with symbol := "AAPL", lastRefreshed := 7 }) := by
  constructor
  · exact symbol_store_invariant.2.1 [recA] recM (by decide)
  · exact symbol_store_invariant.2.2.2.2.2.1 gwS 7 [] "AAPL" false
      ⟨{ recA with symbol := "AAPL", lastRefreshed := 7 },
        upsertSymbol [] { recA with symbol := "AAPL", lastRefreshed := 7 },
        1, 1⟩ (by decide) (by decide)

theorem latestRow_eq_none_iff {l : List Candle} :
    latestRow l = none ↔ l = [] := by
  cases l with
  | nil => simp [latestRow]
  | cons c cs =>
    simp only [latestRow]
    cases hx : latestRow cs with
    | none => simp
    | some d =>
      by_cases h : d.start < c.start <;> simp [h]

theorem latestRow_mem {l : List Candle} {d : Candle}
    (h : latestRow l = some d) : d ∈ l := by
  induction l generalizing d with
  | nil => simp [latestRow] at h
  | cons c cs ih =>
    simp only [latestRow] at h
    cases hx : latestRow cs with
    | none =>
      simp only [hx] at h
      simp only [Option.some.injEq] at h
      subst h
      exact List.mem_cons_self c cs
    | some e =>
      simp only [hx] at h
      by_cases he : e.start < c.start
      · rw [if_pos he] at h
        simp only [Option.some.injEq] at h
        subst h
        exact List.mem_cons_self c cs
      · rw [if_neg he] at h
        simp only [Option.some.injEq] at h
        subst h
        exact List.mem_cons_of_mem c (ih hx)

theorem latestRow_ge {l : List Candle} {d : Candle}
    (h : latestRow l = some d) : ∀ e ∈ l, e.start ≤ d.start := by
  induction l generalizing d with
  | nil => simp
  | cons c cs ih =>
    simp only [latestRow] at h
    intro e he
    rcases List.mem_cons.1 he with rfl | hem
    · cases hx : latestRow cs with
      | none =>
        simp only [hx] at h
        simp only [Option.some.injEq] at h
        subst h
        exact Nat.le_refl _
      | some f =>
        simp only [hx] at h
        by_cases hf : f.start < e.start
        · rw [if_pos hf] at h
          simp only [Option.some.injEq] at h
          subst h
          exact Nat.le_refl _
        · rw [if_neg hf] at h
          simp only [Option.some.injEq] at h
          subst h
          omega
    · cases hx : latestRow cs with
      | none =>
        have : cs = [] := latestRow_eq_none_iff.1 hx
        subst this
        cases hem
      | some f =>
        simp only [hx] at h
        have hef := ih hx e hem
        by_cases hf : f.start < c.start
        · rw [if_pos hf] at h
          simp only [Option.some.injEq] at h
          subst h
          omega
        · rw [if_neg hf] at h
          simp only [Option.some.injEq] at h
          subst h
          exact hef

/-- C4: for a symbol with at least one cached bar at the finest tracked
interval, `latestPrice` returns the close of the cached row with the
maximum bar-start-timestamp; for a symbol with zero cached rows it returns
`none` (the NoData failure). -/
theorem getLatestPrice_contract :
    (∀ (s : List Candle) (sym : String) (c : Candle), KeyUnique s →
      c ∈ s → c.symbol = sym → c.interval = finestInterval →
      (∀ d ∈ s, d.symbol = sym → d.interval = finestInterval →
        d.start ≤ c.start) →
      getLatestPrice s sym = some c.close) ∧
    (∀ (s : List Candle) (sym : String), (∀ r ∈ s, r.symbol ≠ sym) →
      getLatestPrice s sym = none) := by
  constructor
  · intro s sym c hku hc hsym hitv hmax
    have hcr : c ∈ rowsFor s sym finestInterval :=
      mem_rowsFor_iff.2 ⟨hc, hsym, hitv⟩
    cases hl : latestRow (rowsFor s sym finestInterval) with
    | none =>
      have : rowsFor s sym finestInterval = [] := latestRow_eq_none_iff.1 hl
      rw [this] at hcr
      cases hcr
    | some d =>
      have hdr := latestRow_mem hl
      obtain ⟨hds, hdsym, hditv⟩ := mem_rowsFor_iff.1 hdr
      have h1 : d.start ≤ c.start := hmax d hds hdsym hditv
      have h2 : c.start ≤ d.start := latestRow_ge hl c hcr
      have hdc : d = c := by
        refine eq_of_mem_of_sameKey hku hds hc ?_
        exact sameKey_iff.2 ⟨hdsym.trans hsym.symm,
          hditv.trans hitv.symm, Nat.le_antisymm h1 h2⟩
      rw [getLatestPrice, hl, hdc]
      rfl
  · intro s sym h
    have hrows : rowsFor s sym finestInterval = [] := by
      rw [rowsFor, List.filter_eq_nil_iff]
      intro a ha
      simp only [Bool.and_eq_true, beq_iff_eq]
      intro hc
      exact h a ha hc.1
    rw [getLatestPrice, hrows]
    rfl

/-- Concrete run of C4: with bars at starts 5 and 6 cached for AAPL, the
latest price is the close of the start-6 bar; an uncached symbol yields
`none`. -/
theorem getLatestPrice_contract_witness :
    getLatestPrice [cA, cB, cC] "AAPL" = some cB.close ∧
    getLatestPrice [cA, cB] "TSLA" = none := by
  constructor
  · exact getLatestPrice_contract.1 [cA, cB, cC] "AAPL" cB (by decide)
      (by decide) (by decide) (by decide) (by decide)
  · exact getLatestPrice_contract.2 [cA, cB] "TSLA" (by decide)

/-- C6: `syncAll(interval, makeBackup=true)` fails closed — when the backup
target cannot be written the whole sweep returns nothing: no sync runs and
no new store state is produced; when the backup can be written, the
snapshot copied aside is exactly the store as it was before any per-symbol
sync ran, and every tracked symbol is attempted. -/
theorem updateAllSymbols_backup :
    (∀ (gw : CandleGateway) (now lookback : Nat)
       (symStore : List SymbolRecord) (cs : List Candle) (itv : String),
      updateAllSymbols gw now lookback symStore cs itv true false = none) ∧
    (∀ (gw : CandleGateway) (now lookback : Nat)
       (symStore : List SymbolRecord) (cs : List Candle) (itv : String),
      ∃ res,
        updateAllSymbols gw now lookback symStore cs itv true true =
          some res ∧
        res.backup = some cs ∧ res.attempts = symStore.length) := by
  constructor
  · intro gw now lookback symStore cs itv
    rfl
  · intro gw now lookback symStore cs itv
    refine ⟨⟨((symStore.map (fun r => r.symbol)).foldl
        (sweepStep gw now lookback itv) (cs, 0)).1, some cs,
      (symStore.map (fun r => r.symbol)).length,
      ((symStore.map (fun r => r.symbol)).foldl
        (sweepStep gw now lookback itv) (cs, 0)).2⟩, ?_, rfl, ?_⟩
    · rfl
    · exact List.length_map symStore _

/-- Concrete run of C6: with an unwritable backup target the sweep yields
nothing; with a writable one the pre-sweep store is the snapshot. -/
theorem updateAllSymbols_backup_witness :
    updateAllSymbols gwA 10 10 [recA] [cA] "OneMinute" true false = none ∧
    ∃ res, updateAllSymbols gwA 10 10 [recA] [cA] "OneMinute" true true =
        some res ∧ res.backup = some [cA] ∧ res.attempts = 1 :=
  ⟨updateAllSymbols_backup.1 gwA 10 10 [recA] [cA] "OneMinute",
   updateAllSymbols_backup.2 gwA 10 10 [recA] [cA] "OneMinute"⟩

/-- When the gateway can serve a symbol, the cache-preferring `get` always
succeeds. -/
theorem getLocalSymbol_ok_of_gw_ok {gw : SymbolGateway} {now : Nat}
    {st : List SymbolRecord} {sym : String}
    (h : ∃ d, gw sym = Except.ok d) :
    ∃ res, getLocalSymbol gw now st sym false = Except.ok res := by
  obtain ⟨d, hd⟩ := h
  cases hl : lookupSymbol st sym with
  | some r => exact ⟨⟨r, st, 0, 0⟩, getLocalSymbol_hit hl⟩
  | none =>
    exact ⟨_, getLocalSymbol_refresh hd false (Or.inl hl)⟩

/-- An upsert never evicts a cached symbol. -/
theorem lookup_isSome_upsertSymbol {st : List SymbolRecord} {sym : String}
    (h : (lookupSymbol st sym).isSome) (x : SymbolRecord) :
    (lookupSymbol (upsertSymbol st x) sym).isSome := by
  by_cases hx : sym = x.symbol
  · subst hx
    rw [lookup_upsertSymbol_self st x]
    rfl
  · rw [lookup_upsertSymbol_ne st x hx]
    exact h

/-- One import step never evicts a cached symbol. -/
theorem lookup_isSome_importStep {gw : SymbolGateway} {now : Nat}
    {acc : List SymbolRecord × Nat} {sym0 : String}
    (h : (lookupSymbol acc.1 sym0).isSome) (row : Option String) :
    (lookupSymbol (importStep gw now acc row).1 sym0).isSome := by
  unfold importStep
  cases row with
  | none => exact h
  | some sym =>
    cases hg : getLocalSymbol gw now acc.1 sym false with
    | error e =>
      simp only [hg]
      exact h
    | ok res =>
      simp only [hg]
      rcases getLocalSymbol_store_cases hg with h1 | ⟨d, _, _, h1⟩
      · rw [h1]
        exact h
      · rw [h1]
        exact lookup_isSome_upsertSymbol h _

/-- The import sweep never evicts a cached symbol. -/
theorem lookup_isSome_importFold {gw : SymbolGateway} {now : Nat}
    (rows : List (Option String)) {sym0 : String} :
    ∀ acc : List SymbolRecord × Nat, (lookupSymbol acc.1 sym0).isSome →
      (lookupSymbol ((rows.foldl (importStep gw now) acc).1) sym0).isSome := by
  induction rows with
  | nil => intro acc h; exact h
  | cons row rest ih =>
    intro acc h
    simp only [List.foldl_cons]
    exact ih _ (lookup_isSome_importStep h row)

/-- A successful import step on a valid row caches its symbol. -/
theorem lookup_isSome_importStep_self {gw : SymbolGateway} {now : Nat}
    {acc : List SymbolRecord × Nat} {sym : String}
    (h : ∃ d, gw sym = Except.ok d) :
    (lookupSymbol (importStep gw now acc (some sym)).1 sym).isSome := by
  unfold importStep
  obtain ⟨res, hres⟩ := @getLocalSymbol_ok_of_gw_ok gw now acc.1 sym h
  simp only [hres]
  rcases getLocalSymbol_ok_cases hres with ⟨_, _, hst, hl, _⟩ |
      ⟨_, _, d, _, _, hst⟩
  · rw [hst, hl]
    rfl
  · rw [hst]
    have : lookupSymbol
        (upsertSymbol acc.1
          { d with symbol := sym, lastRefreshed := now }) sym =
        some { d with symbol := sym, lastRefreshed := now } :=
      lookup_upsertSymbol_self acc.1 _
    rw [this]
    rfl

/-- Every valid row of the import ends up cached when the gateway can serve
every valid symbol. -/
theorem importFold_caches_all {gw : SymbolGateway} {now : Nat}
    (rows : List (Option String))
    (hgw : ∀ sym, some sym ∈ rows → ∃ d, gw sym = Except.ok d) :
    ∀ acc : List SymbolRecord × Nat, ∀ sym, some sym ∈ rows →
      (lookupSymbol ((rows.foldl (importStep gw now) acc).1) sym).isSome := by
  induction rows with
  | nil =>
    intro acc sym h
    cases h
  | cons row rest ih =>
    intro acc sym h
    simp only [List.foldl_cons]
    rcases List.mem_cons.1 h with rfl | hm
    · refine lookup_isSome_importFold rest _ ?_
      exact lookup_isSome_importStep_self
        (hgw sym (List.mem_cons_self _ _))
    · exact ih (fun s hs => hgw s (List.mem_cons_of_mem row hs)) _ sym hm

/-- The import success counter counts exactly the valid rows when the
gateway can serve every valid symbol. -/
theorem importFold_count {gw : SymbolGateway} {now : Nat}
    (rows : List (Option String))
    (hgw : ∀ sym, some sym ∈ rows → ∃ d, gw sym = Except.ok d) :
    ∀ acc : List SymbolRecord × Nat,
      (rows.foldl (importStep gw now) acc).2 =
        acc.2 + (rows.filter (fun r => r.isSome)).length := by
  induction rows with
  | nil => intro acc; simp
  | cons row rest ih =>
    intro acc
    simp only [List.foldl_cons]
    cases row with
    | none =>
      have hstep : importStep gw now acc none = acc := rfl
      rw [hstep]
      rw [ih (fun s hs => hgw s (List.mem_cons_of_mem none hs)) acc]
      simp [List.filter]
    | some sym =>
      obtain ⟨res, hres⟩ := @getLocalSymbol_ok_of_gw_ok gw now acc.1 sym
        (hgw sym (List.mem_cons_self _ _))
      have hstep : importStep gw now acc (some sym) = (res.store, acc.2 + 1) := by
        unfold importStep
        simp only [hres]
      rw [hstep]
      rw [ih (fun s hs => hgw s (List.mem_cons_of_mem (some sym) hs))
        (res.store, acc.2 + 1)]
      simp [List.filter]
      omega

/-- C7: batch operations isolate per-item failures.  When the gateway can
serve every valid symbol, `importFromSource` returns exactly the number of
valid rows as its success count — malformed rows are skipped — and every
imported symbol is afterwards retrievable via `get` as a pure cache hit
(zero upstream calls, zero writes); a malformed row or a row whose `get`
fails leaves the batch state untouched and the remaining rows run; and in
the `syncAll` sweep a symbol whose sync fails is skipped while the sweep
continues over the remaining symbols exactly as if the failed symbol were
absent. -/
theorem batch_failure_isolation :
    (∀ (gw : SymbolGateway) (now : Nat) (st : List SymbolRecord)
       (rows : List (Option String)),
      (∀ sym, some sym ∈ rows → ∃ d, gw sym = Except.ok d) →
      (importSymbolsFromCsv gw now st rows).2 =
        (rows.filter (fun r => r.isSome)).length ∧
      (∀ sym, some sym ∈ rows →
        ∃ r, lookupSymbol (importSymbolsFromCsv gw now st rows).1 sym =
            some r ∧
          getLocalSymbol gw now (importSymbolsFromCsv gw now st rows).1
              sym false =
            Except.ok ⟨r, (importSymbolsFromCsv gw now st rows).1, 0, 0⟩)) ∧
    (∀ (gw : SymbolGateway) (now : Nat) (acc : List SymbolRecord × Nat),
      importStep gw now acc none = acc) ∧
    (∀ (gw : SymbolGateway) (now : Nat) (acc : List SymbolRecord × Nat)
       (sym : String) (e : GwError),
      getLocalSymbol gw now acc.1 sym false = Except.error e →
      importStep gw now acc (some sym) = acc) ∧
    (∀ (gw : CandleGateway) (now lookback : Nat) (itv : String)
       (cs : List Candle) (n0 : Nat) (xs ys : List String) (bad : String)
       (e : GwError),
      syncSymbol gw now lookback
          ((xs.foldl (sweepStep gw now lookback itv) (cs, n0)).1) bad itv =
        Except.error e →
      (xs ++ bad :: ys).foldl (sweepStep gw now lookback itv) (cs, n0) =
        (xs ++ ys).foldl (sweepStep gw now lookback itv) (cs, n0)) := by
  refine ⟨?_, ?_, ?_, ?_⟩
  · intro gw now st rows hgw
    constructor
    · rw [importSymbolsFromCsv, importFold_count rows hgw (st, 0)]
      simp
    · intro sym hmem
      have hs := @importFold_caches_all gw now rows hgw (st, 0) sym hmem
      obtain ⟨r, hr⟩ := Option.isSome_iff_exists.1 hs
      exact ⟨r, hr, getLocalSymbol_hit hr⟩
  · intro gw now acc
    rfl
  · intro gw now acc sym e h
    show (match getLocalSymbol gw now acc.1 sym false with
      | Except.ok res => (res.store, acc.2 + 1)
      | Except.error _ => acc) = acc
    rw [h]
  · intro gw now lookback itv cs n0 xs ys bad e herr
    rw [List.foldl_append, List.foldl_append, List.foldl_cons]
    have hstep : sweepStep gw now lookback itv
        (xs.foldl (sweepStep gw now lookback itv) (cs, n0)) bad =
        xs.foldl (sweepStep gw now lookback itv) (cs, n0) := by
      show (match syncSymbol gw now lookback
          ((xs.foldl (sweepStep gw now lookback itv) (cs, n0)).1) bad itv with
        | Except.ok s' =>
          (s', (xs.foldl (sweepStep gw now lookback itv) (cs, n0)).2 + 1)
        | Except.error _ =>
          xs.foldl (sweepStep gw now lookback itv) (cs, n0)) =
        xs.foldl (sweepStep gw now lookback itv) (cs, n0)
      rw [herr]
    rw [hstep]

/-- Concrete run of C7: eight valid rows and two malformed rows import with
success count eight, each imported symbol is a cache hit afterwards, and a
sweep over AAPL, a failing MSFT, then AAPL again equals the sweep with the
failing symbol removed. -/
theorem batch_failure_isolation_witness :
    (importSymbolsFromCsv gwAll 7 [] rows8).2 = 8 ∧
    (∃ r, lookupSymbol (importSymbolsFromCsv gwAll 7 [] rows8).1 "S3" =
        some r ∧
      getLocalSymbol gwAll 7 (importSymbolsFromCsv gwAll 7 [] rows8).1
          "S3" false =
        Except.ok ⟨r, (importSymbolsFromCsv gwAll 7 [] rows8).1, 0, 0⟩) ∧
    (["AAPL"] ++ "MSFT" :: ["AAPL"]).foldl
        (sweepStep gwSkip 10 10 "OneMinute") ([], 0) =
      (["AAPL"] ++ ["AAPL"]).foldl
        (sweepStep gwSkip 10 10 "OneMinute") ([], 0) := by
  have hgw : ∀ sym, some sym ∈ rows8 → ∃ d, gwAll sym = Except.ok d :=
    fun sym _ => ⟨{ recA with symbol := sym }, rfl⟩
  have h1 := batch_failure_isolation.1 gwAll 7 [] rows8 hgw
  refine ⟨?_, h1.2 "S3" (by decide), ?_⟩
  · rw [h1.1]
    rfl
  · exact batch_failure_isolation.2.2.2 gwSkip 10 10 "OneMinute" [] 0
      ["AAPL"] ["AAPL"] "MSFT" GwError.transient (by decide)
